import Mathlib

/-!
Verification development for the terminal raycasting program (src/main.rs).

Modelling conventions:
* `f32` values are represented by exact rationals `ℚ`; the claims settled here
  do not depend on rounding, and every concrete input used in a witness or
  counterexample is exactly representable with exact `f32` arithmetic.
* The transcendental `sin`/`cos` of the facing angle are abstracted: functions
  taking them as explicit arguments receive the rational standing for the `f32`
  value of `sin rot` / `cos rot` (for `Player::render`, whole functions
  `sinF cosF : ℚ → ℚ` are passed).
* Rust's `as usize` cast of an `f32` truncates toward zero and saturates below
  at `0`; this is `f32toUsize`.
* A Rust indexing panic (index out of bounds on `Vec`) is modelled by `Option`:
  `none` is the panic.
-/

/-- PIXEL_MAP from main.rs: row 0 is the wall shade table, row 1 the floor
shade table, each with 5 entries indexed by bucketed distance. -/
def PIXEL_MAP : List (List Char) :=
  [['█', '█', '▒', '░', '•'],
   ['•', '.', '.', '_', '_']]

/-- CharMatrix from main.rs: a fixed-size 2-D character buffer with a `width`
and `height` field and the row-major buffer `buf`. -/
structure CharMatrix where
  width : Nat
  height : Nat
  buf : List (List Char)
deriving DecidableEq

/-- Well-formedness of a CharMatrix as established by `CharMatrix::new` (and by
the literal map assigned in `main`): `buf` holds `height` rows of `width`
characters each. -/
def wfGrid (g : CharMatrix) : Prop :=
  g.buf.length = g.height ∧ ∀ row ∈ g.buf, row.length = g.width

instance (g : CharMatrix) : Decidable (wfGrid g) := by
  unfold wfGrid; infer_instance

/-- Rust's `as usize` cast applied to an `f32`: truncate toward zero,
saturating at `0` for negative inputs (`Rat.floor.toNat` agrees with this on
every rational: for `q ≥ 0` floor is truncation, for `q < 0` `toNat` gives 0). -/
def f32toUsize (q : ℚ) : Nat := q.floor.toNat

/-- Read `g[r][c]`; `none` models the out-of-bounds indexing panic. -/
def readCell (g : CharMatrix) (r c : Nat) : Option Char :=
  (g.buf[r]?).bind fun row => row[c]?

/-- Write `g[r][c] = ch`; `none` models the out-of-bounds indexing panic. -/
def writeCell (g : CharMatrix) (r c : Nat) (ch : Char) : Option CharMatrix :=
  match g.buf[r]? with
  | none => none
  | some row =>
    if c < row.length then
      some { g with buf := g.buf.set r (row.set c ch) }
    else none

/-- Total cell read used where the source loop guards the indices before the
access (the ray-marching loop of `Player::render`). -/
def getCellD (g : CharMatrix) (r c : Nat) : Char :=
  (g.buf.getD r []).getD c ' '

/-- Total cell write used for the screen buffer in `Player::render`, whose
indices are the loop counters and hence in bounds for a well-formed screen. -/
def setCellD (g : CharMatrix) (r c : Nat) (ch : Char) : CharMatrix :=
  { g with buf := g.buf.set r ((g.buf.getD r []).set c ch) }

/-- Player from main.rs; `x`, `y`, `rot`, `fov` (source: `_fov`) and
`movt_step` are `f32` scalars, modelled as rationals; the player owns the map
and screen buffers. -/
structure Player where
  x : ℚ
  y : ℚ
  rot : ℚ
  fov : ℚ
  movt_step : ℚ
  map : CharMatrix
  screen : CharMatrix
deriving DecidableEq

/-- Displacement `dx = (-1.0) * dir * rot.sin() * movt_step` from `Player::mv`;
`s` stands for the `f32` value of `sin rot`. -/
def mvDx (p : Player) (dir : ℤ) (s : ℚ) : ℚ :=
  -1 * (dir : ℚ) * s * p.movt_step

/-- Displacement `dy = (-1.0) * dir * rot.cos() * movt_step` from `Player::mv`;
`c` stands for the `f32` value of `cos rot`. -/
def mvDy (p : Player) (dir : ℤ) (c : ℚ) : ℚ :=
  -1 * (dir : ℚ) * c * p.movt_step

/-- Player::mv from main.rs. `s` and `c` stand for the `f32` values of
`sin rot` and `cos rot`. The candidate cell is read *before* the acceptance
test, exactly as in the source; `none` is an indexing panic. On acceptance
with a changed integer cell the new cell is written `'█'` first and the old
cell `'.'` second, as in the source. -/
def mv (p : Player) (dir : ℤ) (s c : ℚ) : Option Player :=
  let dx := mvDx p dir s
  let dy := mvDy p dir c
  let newCol := f32toUsize (p.x + dx)
  let newRow := f32toUsize (p.y + dy)
  match readCell p.map newRow newCol with
  | none => none
  | some chr =>
    if chr ≠ '#' ∧ newCol < p.map.width ∧ newRow < p.map.width then
      if (f32toUsize p.x, f32toUsize p.y) ≠ (newCol, newRow) then
        match writeCell p.map newRow newCol '█' with
        | none => none
        | some m1 =>
          match writeCell m1 (f32toUsize p.y) (f32toUsize p.x) '.' with
          | none => none
          | some m2 => some { p with x := p.x + dx, y := p.y + dy, map := m2 }
      else some { p with x := p.x + dx, y := p.y + dy }
    else some p

/-- The `f32` value of `std::f32::consts::PI` (the IEEE-754 single nearest to
π), as an exact rational: `13176795 / 2 ^ 22`. -/
def piF32 : ℚ := 13176795 / 2 ^ 22

/-- Truncation toward zero, the rounding used by Rust's `%` on floats. -/
def qtrunc (q : ℚ) : ℤ :=
  if 0 ≤ q then q.floor else -(-q).floor

/-- Rust's `%` on floats: `a - trunc(a / b) * b`, the remainder carrying the
sign of the dividend `a`. -/
def fmodQ (a b : ℚ) : ℚ := a - qtrunc (a / b) * b

/-- Player::rotate from main.rs: add the rotation to `rot`, reduce by
`2.0 * PI` with Rust's float `%`, and floor `x` and `y`. -/
def rotate (p : Player) (rotation : ℚ) : Player :=
  { p with
    rot := fmodQ (p.rot + rotation) (2 * piF32)
    x := (p.x.floor : ℚ)
    y := (p.y.floor : ℚ) }

/-- Ray angle of screen column `i` in `Player::render`: the source initialises
`pos = rot + fov` and executes `pos += drot` (with `drot = fov / width`)
*before* using `pos` for column `i`, so column 0 already includes one
increment. -/
def colAngle (rot fov : ℚ) (w : Nat) : Nat → ℚ
  | 0 => rot + fov + fov / (w : ℚ)
  | i + 1 => colAngle rot fov w i + fov / (w : ℚ)

/-- Ray-marching loop of `Player::render`, with explicit fuel: starting at
`(x, y)`, step by `(sx, sy)` (the source's `coeff * movt_step / 6`) and count
steps while the point is inside the map bounds and not on a wall cell.
`none` means the fuel ran out before the loop exited. -/
def marchAux (m : CharMatrix) (sx sy : ℚ) : Nat → ℚ → ℚ → Nat → Option Nat
  | 0, _, _, _ => none
  | fuel + 1, x, y, steps =>
    if 0 ≤ x ∧ x < (m.width : ℚ) ∧ 0 ≤ y ∧ y < (m.height : ℚ) ∧
        getCellD m (f32toUsize y) (f32toUsize x) ≠ '#' then
      marchAux m sx sy fuel (x + sx) (y + sy) (steps + 1)
    else some steps

/-- Shade-table index used by `Player::render`: `min(dist, 4)` with
`dist = steps / 15` (integer division). -/
def shadeIndex (steps : Nat) : Nat := min (steps / 15) 4

/-- Character put at row `j` of a rendered column, from the row-fill loop of
`Player::render`: with `dist = steps / 15` and
`tiles = min(dist * 10, w / 5) / 4`, rows `j ≤ tiles` are blank, rows
`j ≤ h - tiles` take the wall shade, the rest take the floor shade. -/
def columnChar (w h steps j : Nat) : Char :=
  let dist := steps / 15
  let tiles := min (dist * 10) (w / 5) / 4
  if j ≤ tiles then ' '
  else if j ≤ h - tiles then (PIXEL_MAP.getD 0 []).getD (min dist 4) ' '
  else (PIXEL_MAP.getD 1 []).getD (min dist 4) ' '

/-- Fill screen column `i` from a raw step count, row by row, as the inner
`for j` loop of `Player::render` does. -/
def fillCol (scr : CharMatrix) (i steps : Nat) : CharMatrix :=
  (List.range scr.height).foldl
    (fun g j => setCellD g j i (columnChar scr.width scr.height steps j)) scr

/-- Player::render from main.rs: for each screen column compute the ray angle,
march the ray over the map from the player position, and fill the column from
the resulting step count. `sinF`/`cosF` stand for `f32` sine and cosine and
`fuel` bounds the ray-marching loop (a sufficient fuel exists, see the
termination theorem). Only the screen buffer is rebuilt. -/
def render (fuel : Nat) (sinF cosF : ℚ → ℚ) (p : Player) : Player :=
  { p with screen :=
      (List.range p.screen.width).foldl (fun scr i =>
        let ang := colAngle p.rot p.fov p.screen.width i
        let steps := (marchAux p.map (sinF ang * p.movt_step / 6)
          (cosF ang * p.movt_step / 6) fuel p.x p.y 0).getD 0
        fillCol scr i steps) p.screen }

/-- Display for CharMatrix from main.rs: for each row append the row's
characters, then `'\r'`, then `'\n'`. -/
def fmtGrid (g : CharMatrix) : String :=
  g.buf.foldl (fun acc row => acc ++ String.mk row ++ "\r\n") ""

/-- Text block written by `Player::print`: the screen grid, the map grid, the
facing in degrees (`rot / PI * 180`), and a degree sign. `fmt` stands for
Rust's `f32` Display rendering of the degree value. -/
def printOut (p : Player) (fmt : ℚ → String) : String :=
  fmtGrid p.screen ++ fmtGrid p.map ++ fmt (p.rot / piF32 * 180) ++ "°"

/-- The fixed 19×20 map assigned in `main`. -/
def gameMap : CharMatrix :=
  ⟨19, 20,
    [(List.replicate 10 '#') ++ (List.replicate 4 '.') ++ (List.replicate 5 '#'),
     ('#' :: List.replicate 17 '.') ++ ['#'],
     (('#' :: List.replicate 4 '.') ++ ('#' :: List.replicate 12 '.')) ++ ['#'],
     (('#' :: List.replicate 4 '.') ++ ('#' :: List.replicate 12 '.')) ++ ['#'],
     (('#' :: List.replicate 4 '.') ++ ('#' :: List.replicate 12 '.')) ++ ['#'],
     (('#' :: List.replicate 4 '.') ++ ('#' :: List.replicate 12 '.')) ++ ['#'],
     (('#' :: List.replicate 4 '.') ++ (List.replicate 6 '#' ++ List.replicate 7 '.')) ++ ['#'],
     ((List.replicate 10 '.') ++ ('#' :: List.replicate 7 '.')) ++ ['#'],
     ((List.replicate 10 '.') ++ ('#' :: List.replicate 7 '.')) ++ ['#'],
     (('#' :: List.replicate 9 '.') ++ ('#' :: List.replicate 7 '.')) ++ ['#'],
     (('#' :: List.replicate 9 '.') ++ ('#' :: List.replicate 7 '.')) ++ ['#'],
     ((List.replicate 11 '#') ++ (List.replicate 7 '.')) ++ ['#'],
     (('#' :: List.replicate 9 '.') ++ ('#' :: List.replicate 7 '.')) ++ ['#'],
     (('#' :: List.replicate 9 '.') ++ ('#' :: List.replicate 7 '.')) ++ ['#'],
     (('#' :: List.replicate 9 '.') ++ ('#' :: List.replicate 7 '.')) ++ ['#'],
     (('#' :: List.replicate 9 '.') ++ ('#' :: List.replicate 7 '.')) ++ ['#'],
     (('#' :: List.replicate 9 '.') ++ ('#' :: List.replicate 7 '.')) ++ ['#'],
     (('#' :: List.replicate 9 '.') ++ ('#' :: List.replicate 7 '.')) ++ ['#'],
     '#' :: List.replicate 18 '.',
     List.replicate 19 '#']⟩

/-- The 160×40 screen buffer created in `main` (filled with `'█'`). -/
def gameScreen : CharMatrix :=
  ⟨160, 40, List.replicate 40 (List.replicate 160 '█')⟩

/-- Base concrete player state used by witnesses and counterexamples: the
initial configuration of `main` (position (3, 5), facing 0, step 0.5) over the
fixed map and screen. -/
def pBase : Player := ⟨3, 5, 0, 0, 1 / 2, gameMap, gameScreen⟩

/-- Rat.floor agrees with the Mathlib floor. -/
theorem ratFloor_eq_intFloor (q : ℚ) : q.floor = ⌊q⌋ := by
  rw [Rat.floor_def', Rat.floor_def]

/-- Floor cast is below the rational. -/
theorem ratFloor_le (q : ℚ) : (q.floor : ℚ) ≤ q := Rat.le_floor.mp le_rfl

/-- A rational lies below its floor plus one. -/
theorem ratLt_floor_add_one (q : ℚ) : q < (q.floor : ℚ) + 1 := by
  by_contra h
  push_neg at h
  have h2 : ((q.floor + 1 : ℤ) : ℚ) ≤ q := by push_cast; linarith
  have h3 := Rat.le_floor.mpr h2
  omega

/-- Range of the Rust float `%`: the remainder has the dividend's sign and
magnitude below the (positive) divisor. -/
theorem fmodQ_bounds (a b : ℚ) (hb : 0 < b) :
    -b < fmodQ a b ∧ fmodQ a b < b ∧ (0 ≤ a → 0 ≤ fmodQ a b) ∧
      (a ≤ 0 → fmodQ a b ≤ 0) := by
  have hbne : b ≠ 0 := hb.ne'
  unfold fmodQ qtrunc
  by_cases ha : 0 ≤ a / b
  · rw [if_pos ha]
    have h1 : (((a / b).floor : ℤ) : ℚ) ≤ a / b := ratFloor_le _
    have h2 : a / b < (((a / b).floor : ℤ) : ℚ) + 1 := ratLt_floor_add_one _
    have hle : (((a / b).floor : ℤ) : ℚ) * b ≤ a := by
      have h3 := mul_le_mul_of_nonneg_right h1 hb.le
      rwa [div_mul_cancel₀ a hbne] at h3
    have hlt : a < ((((a / b).floor : ℤ) : ℚ) + 1) * b := by
      have h3 := mul_lt_mul_of_pos_right h2 hb
      rwa [div_mul_cancel₀ a hbne] at h3
    rw [add_mul, one_mul] at hlt
    refine ⟨by linarith, by linarith, fun _ => by linarith, fun ha2 => ?_⟩
    have ha0 : 0 ≤ a := by
      have h3 := mul_le_mul_of_nonneg_right ha hb.le
      rwa [div_mul_cancel₀ a hbne, zero_mul] at h3
    have : a = 0 := le_antisymm ha2 ha0
    subst this
    simp [ratFloor_eq_intFloor]
  · rw [if_neg ha]
    push_neg at ha
    have ha' : a < 0 := by
      by_contra h
      push_neg at h
      exact absurd (div_nonneg h hb.le) (not_le.mpr ha)
    have hneg : -(a / b) = -a / b := (neg_div b a).symm
    have h1 : (((-(a / b)).floor : ℤ) : ℚ) ≤ -(a / b) := ratFloor_le _
    have h2 : -(a / b) < (((-(a / b)).floor : ℤ) : ℚ) + 1 := ratLt_floor_add_one _
    have hqb : -(a / b) * b = -a := by
      rw [neg_mul, div_mul_cancel₀ a hbne]
    have hA : (((-(a / b)).floor : ℤ) : ℚ) * b ≤ -a := by
      have h3 := mul_le_mul_of_nonneg_right h1 hb.le
      rwa [hqb] at h3
    have hB : -a < ((((-(a / b)).floor : ℤ) : ℚ) + 1) * b := by
      have h3 := mul_lt_mul_of_pos_right h2 hb
      rwa [hqb] at h3
    rw [add_mul, one_mul] at hB
    push_cast
    refine ⟨by linarith, by linarith, fun h => absurd h (not_le.mpr ha'), fun _ => by linarith⟩

/-- C3 (amended): after `rotate(delta)` the facing equals `(rot + delta)`
reduced by Rust's float `%` with modulus `2 * PI`, so it carries the sign of
`rot + delta` and lies in the open interval `(-2π, 2π)` — it lands in
`[0, 2π)` only when `rot + delta` is nonnegative; `x` and `y` are floored. -/
theorem c3_rotate_wrap (p : Player) (delta : ℚ) :
    (rotate p delta).x = (p.x.floor : ℚ) ∧
    (rotate p delta).y = (p.y.floor : ℚ) ∧
    (rotate p delta).rot = fmodQ (p.rot + delta) (2 * piF32) ∧
    -(2 * piF32) < (rotate p delta).rot ∧ (rotate p delta).rot < 2 * piF32 ∧
    (0 ≤ p.rot + delta → 0 ≤ (rotate p delta).rot) ∧
    (p.rot + delta ≤ 0 → (rotate p delta).rot ≤ 0) := by
  have hb : (0 : ℚ) < 2 * piF32 := by norm_num [piF32]
  obtain ⟨h1, h2, h3, h4⟩ := fmodQ_bounds (p.rot + delta) (2 * piF32) hb
  exact ⟨rfl, rfl, rfl, h1, h2, h3, h4⟩

/-- C3 witness: the amended rotation theorem applied at the initial player
state with rotation 1. -/
theorem c3_rotate_witness :
    0 ≤ pBase.rot + 1 ∧ 0 ≤ (rotate pBase 1).rot :=
  ⟨by norm_num [pBase], (c3_rotate_wrap pBase 1).2.2.2.2.2.1 (by norm_num [pBase])⟩

/-- C3 counterexample: rotating the initial state (facing 0) by −1 gives
facing −1, which does not lie in `[0, 2π)`: Rust's `%` does not wrap negative
angles into that interval. -/
theorem c3_rotate_cex :
    (rotate pBase (-1)).rot = -1 ∧ ¬ (0 ≤ (rotate pBase (-1)).rot) := by
  have h : (rotate pBase (-1)).rot = -1 := by
    have h0 : (rotate pBase (-1)).rot = fmodQ ((0 : ℚ) + -1) (2 * piF32) := rfl
    rw [h0]
    unfold fmodQ qtrunc
    rw [if_neg (by norm_num [piF32]), ratFloor_eq_intFloor]
    norm_num [piF32]
  exact ⟨h, by rw [h]; norm_num⟩

/-- Closed form of the per-column ray angle accumulation of `Player::render`. -/
theorem colAngle_closed (rot fov : ℚ) (w : Nat) (i : Nat) :
    colAngle rot fov w i = rot + fov + ((i : ℚ) + 1) * (fov / (w : ℚ)) := by
  induction i with
  | zero => simp only [colAngle]; push_cast; ring
  | succ i ih => rw [colAngle, ih]; push_cast; ring

/-- C4 (amended): the ray angle of column `i` is
`facing + fov + (i + 1) * (fov / width)` — the source increments `pos` before
using it, so the first column's angle is `facing + fov + fov/width`, not
`facing + fov`, and the swept angles end at `facing + 2 * fov` on the last
column. -/
theorem c4_ray_angles (rot fov : ℚ) (w : Nat) (i : Nat) (hw : 0 < w) :
    colAngle rot fov w i = rot + fov + ((i : ℚ) + 1) * (fov / (w : ℚ)) ∧
    colAngle rot fov w (w - 1) = rot + 2 * fov := by
  have hw' : ((w : ℚ)) ≠ 0 := Nat.cast_ne_zero.mpr hw.ne'
  refine ⟨colAngle_closed rot fov w i, ?_⟩
  rw [colAngle_closed, Nat.cast_sub hw]
  push_cast
  field_simp
  ring

/-- C4 witness: the amended angle formula applied at facing 0, fov 3, a
160-column screen and column 0. -/
theorem c4_ray_angles_witness :
    (0 : Nat) < 160 ∧
    (colAngle 0 3 160 0 = 0 + 3 + (((0 : Nat) : ℚ) + 1) * (3 / ((160 : Nat) : ℚ)) ∧
     colAngle 0 3 160 (160 - 1) = 0 + 2 * 3) :=
  ⟨by decide, c4_ray_angles 0 3 160 0 (by decide)⟩

/-- C4 counterexample: the first rendered column's ray angle is not
`facing + fov`: at facing 0, fov 3 and width 160 it is `3 + 3/160`, not `3`. -/
theorem c4_ray_angles_cex : colAngle 0 3 160 0 ≠ (0 : ℚ) + 3 := by
  norm_num [colAngle]

/-- Unfolding equation for `columnChar`. -/
theorem columnChar_eq (w h steps j : Nat) :
    columnChar w h steps j =
      if j ≤ min ((steps / 15) * 10) (w / 5) / 4 then ' '
      else if j ≤ h - min ((steps / 15) * 10) (w / 5) / 4 then
        (PIXEL_MAP.getD 0 []).getD (min (steps / 15) 4) ' '
      else (PIXEL_MAP.getD 1 []).getD (min (steps / 15) 4) ' ' := rfl

/-- C5: the rendered column from a raw step count `steps`: with
`dist = steps / 15` and `ceiling = min(dist * 10, w / 5) / 4` (all integer
arithmetic), rows `j ≤ ceiling` are blank, rows with `ceiling < j ≤ h - ceiling`
take the wall shade table at index `min dist 4`, and the remaining rows take
the floor shade table at the same index. The hypothesis `ceiling ≤ h` makes
the truncated subtraction agree with Rust's `usize` subtraction; it holds for
the program's 160×40 screen, where `ceiling ≤ 8`. -/
theorem c5_column_fill (w h steps : Nat)
    (hceil : min ((steps / 15) * 10) (w / 5) / 4 ≤ h) :
    (∀ j, j ≤ min ((steps / 15) * 10) (w / 5) / 4 → columnChar w h steps j = ' ') ∧
    (∀ j, min ((steps / 15) * 10) (w / 5) / 4 < j →
      j ≤ h - min ((steps / 15) * 10) (w / 5) / 4 →
      columnChar w h steps j = (PIXEL_MAP.getD 0 []).getD (min (steps / 15) 4) ' ') ∧
    (∀ j, min ((steps / 15) * 10) (w / 5) / 4 < j →
      h - min ((steps / 15) * 10) (w / 5) / 4 < j →
      columnChar w h steps j = (PIXEL_MAP.getD 1 []).getD (min (steps / 15) 4) ' ') := by
  refine ⟨fun j hj => ?_, fun j hj1 hj2 => ?_, fun j hj1 hj2 => ?_⟩
  · rw [columnChar_eq, if_pos hj]
  · rw [columnChar_eq, if_neg (not_le.mpr hj1), if_pos hj2]
  · rw [columnChar_eq, if_neg (not_le.mpr hj1), if_neg (not_le.mpr hj2)]

/-- C5 witness: the column-fill characterization at the program's screen size
(160 wide, 40 tall) with a raw step count of 30. -/
theorem c5_column_fill_witness :
    min ((30 / 15) * 10) (160 / 5) / 4 ≤ 40 ∧
    ((∀ j, j ≤ min ((30 / 15) * 10) (160 / 5) / 4 → columnChar 160 40 30 j = ' ') ∧
     (∀ j, min ((30 / 15) * 10) (160 / 5) / 4 < j →
       j ≤ 40 - min ((30 / 15) * 10) (160 / 5) / 4 →
       columnChar 160 40 30 j = (PIXEL_MAP.getD 0 []).getD (min (30 / 15) 4) ' ') ∧
     (∀ j, min ((30 / 15) * 10) (160 / 5) / 4 < j →
       40 - min ((30 / 15) * 10) (160 / 5) / 4 < j →
       columnChar 160 40 30 j = (PIXEL_MAP.getD 1 []).getD (min (30 / 15) 4) ' ')) :=
  ⟨by decide, c5_column_fill 160 40 30 (by decide)⟩

/-- C7: the shade-table index `min (steps / 15) 4` is monotone in the raw step
count. -/
theorem c7_shade_monotone (s1 s2 : Nat) (h : s1 < s2) :
    shadeIndex s1 ≤ shadeIndex s2 := by
  unfold shadeIndex
  exact min_le_min (Nat.div_le_div_right h.le) le_rfl

/-- C7 witness: the monotonicity theorem applied at step counts 3 and 100. -/
theorem c7_shade_witness : 3 < 100 ∧ shadeIndex 3 ≤ shadeIndex 100 :=
  ⟨by decide, c7_shade_monotone 3 100 (by decide)⟩

/-- C10: `render` only rebuilds the screen buffer — the position, the facing,
the step size and the whole map grid are unchanged, for every fuel, every
sine/cosine oracle and every player state. -/
theorem c10_render_frame (fuel : Nat) (sinF cosF : ℚ → ℚ) (p : Player) :
    (render fuel sinF cosF p).x = p.x ∧ (render fuel sinF cosF p).y = p.y ∧
    (render fuel sinF cosF p).rot = p.rot ∧
    (render fuel sinF cosF p).movt_step = p.movt_step ∧
    (render fuel sinF cosF p).map = p.map :=
  ⟨rfl, rfl, rfl, rfl, rfl⟩

/-- March loop exits within the fuel when the x-increment is positive: the x
coordinate grows past the width bound. -/
theorem march_escape_pos_x (m : CharMatrix) (sx sy : ℚ) (hsx : 0 < sx) :
    ∀ (fuel : Nat) (x y : ℚ) (steps : Nat), (m.width : ℚ) - x < (fuel : ℚ) * sx →
      (marchAux m sx sy (fuel + 1) x y steps).isSome := by
  intro fuel
  induction fuel with
  | zero =>
    intro x y steps h
    rw [Nat.cast_zero, zero_mul] at h
    simp only [marchAux]
    rw [if_neg]
    · simp
    · rintro ⟨h1, h2, h3, h4, h5⟩
      linarith
  | succ fuel ih =>
    intro x y steps h
    simp only [marchAux]
    by_cases hc : 0 ≤ x ∧ x < (m.width : ℚ) ∧ 0 ≤ y ∧ y < (m.height : ℚ) ∧
        getCellD m (f32toUsize y) (f32toUsize x) ≠ '#'
    · rw [if_pos hc]
      apply ih
      push_cast at h ⊢
      linarith
    · rw [if_neg hc]
      simp

/-- March loop exits within the fuel when the x-increment is negative: the x
coordinate drops below zero. -/
theorem march_escape_neg_x (m : CharMatrix) (sx sy : ℚ) (hsx : sx < 0) :
    ∀ (fuel : Nat) (x y : ℚ) (steps : Nat), x < (fuel : ℚ) * (-sx) →
      (marchAux m sx sy (fuel + 1) x y steps).isSome := by
  intro fuel
  induction fuel with
  | zero =>
    intro x y steps h
    rw [Nat.cast_zero, zero_mul] at h
    simp only [marchAux]
    rw [if_neg]
    · simp
    · rintro ⟨h1, h2, h3, h4, h5⟩
      linarith
  | succ fuel ih =>
    intro x y steps h
    simp only [marchAux]
    by_cases hc : 0 ≤ x ∧ x < (m.width : ℚ) ∧ 0 ≤ y ∧ y < (m.height : ℚ) ∧
        getCellD m (f32toUsize y) (f32toUsize x) ≠ '#'
    · rw [if_pos hc]
      apply ih
      push_cast at h ⊢
      linarith
    · rw [if_neg hc]
      simp

/-- March loop exits within the fuel when the y-increment is positive. -/
theorem march_escape_pos_y (m : CharMatrix) (sx sy : ℚ) (hsy : 0 < sy) :
    ∀ (fuel : Nat) (x y : ℚ) (steps : Nat), (m.height : ℚ) - y < (fuel : ℚ) * sy →
      (marchAux m sx sy (fuel + 1) x y steps).isSome := by
  intro fuel
  induction fuel with
  | zero =>
    intro x y steps h
    rw [Nat.cast_zero, zero_mul] at h
    simp only [marchAux]
    rw [if_neg]
    · simp
    · rintro ⟨h1, h2, h3, h4, h5⟩
      linarith
  | succ fuel ih =>
    intro x y steps h
    simp only [marchAux]
    by_cases hc : 0 ≤ x ∧ x < (m.width : ℚ) ∧ 0 ≤ y ∧ y < (m.height : ℚ) ∧
        getCellD m (f32toUsize y) (f32toUsize x) ≠ '#'
    · rw [if_pos hc]
      apply ih
      push_cast at h ⊢
      linarith
    · rw [if_neg hc]
      simp

/-- March loop exits within the fuel when the y-increment is negative. -/
theorem march_escape_neg_y (m : CharMatrix) (sx sy : ℚ) (hsy : sy < 0) :
    ∀ (fuel : Nat) (x y : ℚ) (steps : Nat), y < (fuel : ℚ) * (-sy) →
      (marchAux m sx sy (fuel + 1) x y steps).isSome := by
  intro fuel
  induction fuel with
  | zero =>
    intro x y steps h
    rw [Nat.cast_zero, zero_mul] at h
    simp only [marchAux]
    rw [if_neg]
    · simp
    · rintro ⟨h1, h2, h3, h4, h5⟩
      linarith
  | succ fuel ih =>
    intro x y steps h
    simp only [marchAux]
    by_cases hc : 0 ≤ x ∧ x < (m.width : ℚ) ∧ 0 ≤ y ∧ y < (m.height : ℚ) ∧
        getCellD m (f32toUsize y) (f32toUsize x) ≠ '#'
    · rw [if_pos hc]
      apply ih
      push_cast at h ⊢
      linarith
    · rw [if_neg hc]
      simp

/-- C6: for every map and start position, the ray-marching loop of
`Player::render` — stepping by `(s * step / 6, c * step / 6)` until leaving
the map bounds or reaching a wall — terminates: some finite fuel makes the
loop return its step count. The hypotheses hold for every ray the program
casts: the step size is 0.5 > 0, and the `f32` sine and cosine of an angle
are never both zero. Termination needs no closed-map assumption: a ray also
stops on leaving the bounds, and walls only stop it sooner. -/
theorem c6_march_terminates (m : CharMatrix) (s c step x y : ℚ)
    (hstep : 0 < step) (hsc : s ≠ 0 ∨ c ≠ 0) :
    ∃ fuel n, marchAux m (s * step / 6) (c * step / 6) fuel x y 0 = some n := by
  rcases hsc with hs | hc
  · rcases hs.lt_or_lt with hneg | hpos
    · have hsx : s * step / 6 < 0 :=
        div_neg_of_neg_of_pos (mul_neg_of_neg_of_pos hneg hstep) (by norm_num)
      have hpos' : 0 < -(s * step / 6) := neg_pos.mpr hsx
      obtain ⟨n, hn⟩ := exists_nat_gt (x / (-(s * step / 6)))
      have hx : x < (n : ℚ) * (-(s * step / 6)) := by
        have h2 := mul_lt_mul_of_pos_right hn hpos'
        rwa [div_mul_cancel₀ x hpos'.ne'] at h2
      have h3 := march_escape_neg_x m (s * step / 6) (c * step / 6) hsx n x y 0 hx
      obtain ⟨k, hk⟩ := Option.isSome_iff_exists.mp h3
      exact ⟨n + 1, k, hk⟩
    · have hsx : 0 < s * step / 6 := div_pos (mul_pos hpos hstep) (by norm_num)
      obtain ⟨n, hn⟩ := exists_nat_gt (((m.width : ℚ) - x) / (s * step / 6))
      have hx : (m.width : ℚ) - x < (n : ℚ) * (s * step / 6) := by
        have h2 := mul_lt_mul_of_pos_right hn hsx
        rwa [div_mul_cancel₀ _ hsx.ne'] at h2
      have h3 := march_escape_pos_x m (s * step / 6) (c * step / 6) hsx n x y 0 hx
      obtain ⟨k, hk⟩ := Option.isSome_iff_exists.mp h3
      exact ⟨n + 1, k, hk⟩
  · rcases hc.lt_or_lt with hneg | hpos
    · have hsy : c * step / 6 < 0 :=
        div_neg_of_neg_of_pos (mul_neg_of_neg_of_pos hneg hstep) (by norm_num)
      have hpos' : 0 < -(c * step / 6) := neg_pos.mpr hsy
      obtain ⟨n, hn⟩ := exists_nat_gt (y / (-(c * step / 6)))
      have hy : y < (n : ℚ) * (-(c * step / 6)) := by
        have h2 := mul_lt_mul_of_pos_right hn hpos'
        rwa [div_mul_cancel₀ y hpos'.ne'] at h2
      have h3 := march_escape_neg_y m (s * step / 6) (c * step / 6) hsy n x y 0 hy
      obtain ⟨k, hk⟩ := Option.isSome_iff_exists.mp h3
      exact ⟨n + 1, k, hk⟩
    · have hsy : 0 < c * step / 6 := div_pos (mul_pos hpos hstep) (by norm_num)
      obtain ⟨n, hn⟩ := exists_nat_gt (((m.height : ℚ) - y) / (c * step / 6))
      have hy : (m.height : ℚ) - y < (n : ℚ) * (c * step / 6) := by
        have h2 := mul_lt_mul_of_pos_right hn hsy
        rwa [div_mul_cancel₀ _ hsy.ne'] at h2
      have h3 := march_escape_pos_y m (s * step / 6) (c * step / 6) hsy n x y 0 hy
      obtain ⟨k, hk⟩ := Option.isSome_iff_exists.mp h3
      exact ⟨n + 1, k, hk⟩

/-- C6 witness: termination of the ray march on the program's map from the
initial position (3, 5) with sine 0, cosine 1 and the program's step size. -/
theorem c6_march_witness :
    ∃ fuel n,
      marchAux gameMap ((0 : ℚ) * (1 / 2) / 6) ((1 : ℚ) * (1 / 2) / 6) fuel 3 5 0 = some n :=
  c6_march_terminates gameMap 0 1 (1 / 2) 3 5 (by norm_num) (Or.inr one_ne_zero)

/-- Unrolling of the Display fold: the accumulated string is the accumulator
followed by every row with its `"\r\n"` terminator, concatenated in order. -/
theorem fmtGrid_fold (rows : List (List Char)) (acc : String) :
    (rows.foldl (fun a row => a ++ String.mk row ++ "\r\n") acc).data =
      acc.data ++ (rows.map (fun row => row ++ ['\r', '\n'])).flatten := by
  induction rows generalizing acc with
  | nil => simp
  | cons r rs ih =>
    rw [List.foldl_cons, ih]
    simp [String.data_append, List.append_assoc]

/-- C8: serializing a well-formed grid yields exactly `height` lines in
row order, each being the row's `width` characters followed by the `"\r\n"`
terminator, with nothing after the last terminator (the serialized text is
precisely the concatenation of those terminated lines); and the frame block of
`Player::print` is the serialized screen, immediately followed by the
serialized map, followed by the facing angle converted to degrees
(`rot / PI * 180`) and a trailing degree sign. -/
theorem c8_display_text (g : CharMatrix) (p : Player) (fmt : ℚ → String)
    (hg : wfGrid g) :
    (fmtGrid g).data = (g.buf.map (fun row => row ++ ['\r', '\n'])).flatten ∧
    g.buf.length = g.height ∧ (∀ row ∈ g.buf, row.length = g.width) ∧
    (printOut p fmt).data =
      (fmtGrid p.screen).data ++ (fmtGrid p.map).data ++
        (fmt (p.rot / piF32 * 180)).data ++ ['°'] := by
  refine ⟨?_, hg.1, hg.2, ?_⟩
  · unfold fmtGrid
    rw [fmtGrid_fold]
    simp
  · unfold printOut
    simp only [String.data_append]

/-- C8 witness: the serialization theorem applied to the program's map grid
and the initial player state, with a fixed degree formatter. -/
theorem c8_display_witness :
    wfGrid gameMap ∧
    ((fmtGrid gameMap).data = (gameMap.buf.map (fun row => row ++ ['\r', '\n'])).flatten ∧
     gameMap.buf.length = gameMap.height ∧
     (∀ row ∈ gameMap.buf, row.length = gameMap.width) ∧
     (printOut pBase (fun _ => "0")).data =
       (fmtGrid pBase.screen).data ++ (fmtGrid pBase.map).data ++
         ((fun _ : ℚ => "0") (pBase.rot / piF32 * 180)).data ++ ['°']) :=
  ⟨by decide, c8_display_text gameMap pBase (fun _ => "0") (by decide)⟩

/-- Successful map write: when the target row and column exist, `writeCell`
returns the grid with that one cell replaced. -/
theorem writeCell_some (g : CharMatrix) (r c2 : Nat) (ch : Char) (row : List Char)
    (hr : g.buf[r]? = some row) (hc : c2 < row.length) :
    writeCell g r c2 ch = some { g with buf := g.buf.set r (row.set c2 ch) } := by
  unfold writeCell
  rw [hr]
  simp [hc]

/-- Cell reads after the two writes `mv` performs on acceptance (new cell
`'█'` first at `(nr, nc)`, old cell `'.'` second at `(orr, oc)`): the new cell
reads `'█'`, the old cell reads `'.'`, and every other cell is unchanged. -/
theorem readCell_after_two_sets (g : CharMatrix) (nr nc orr oc : Nat)
    (row row2 : List Char)
    (hrowsome : g.buf[nr]? = some row)
    (hrow2 : (g.buf.set nr (row.set nc '█'))[orr]? = some row2)
    (hnclen : nc < row.length) (hoclen : oc < row2.length)
    (hdiff : (oc, orr) ≠ (nc, nr)) :
    readCell { g with buf := (g.buf.set nr (row.set nc '█')).set orr (row2.set oc '.') } nr nc
        = some '█' ∧
    readCell { g with buf := (g.buf.set nr (row.set nc '█')).set orr (row2.set oc '.') } orr oc
        = some '.' ∧
    ∀ r2 c2, (r2, c2) ≠ (nr, nc) → (r2, c2) ≠ (orr, oc) →
      readCell { g with buf := (g.buf.set nr (row.set nc '█')).set orr (row2.set oc '.') } r2 c2
        = readCell g r2 c2 := by
  have hnrlen : nr < g.buf.length := (List.getElem?_eq_some_iff.mp hrowsome).1
  have horlen : orr < (g.buf.set nr (row.set nc '█')).length :=
    (List.getElem?_eq_some_iff.mp hrow2).1
  have horlen2 : orr < g.buf.length := by simpa using horlen
  refine ⟨?_, ?_, ?_⟩
  · unfold readCell
    by_cases horn : orr = nr
    · have h1 : some row2 = some (row.set nc '█') := by
        rw [← hrow2, horn, List.getElem?_set_self hnrlen]
      have hrow2eq := Option.some.inj h1
      have hocnc : oc ≠ nc := fun h => hdiff (by rw [h, horn])
      rw [← horn, List.getElem?_set_self (by simpa using horlen2)]
      show (row2.set oc '.')[nc]? = some '█'
      rw [hrow2eq, List.getElem?_set_ne hocnc, List.getElem?_set_self hnclen]
    · rw [List.getElem?_set_ne horn, List.getElem?_set_self hnrlen]
      show (row.set nc '█')[nc]? = some '█'
      rw [List.getElem?_set_self hnclen]
  · unfold readCell
    rw [List.getElem?_set_self (by simpa using horlen2)]
    show (row2.set oc '.')[oc]? = some '.'
    rw [List.getElem?_set_self hoclen]
  · intro r2 c2 hne1 hne2
    unfold readCell
    by_cases hro : r2 = orr
    · have hco : c2 ≠ oc := fun h => hne2 (by rw [hro, h])
      rw [hro, List.getElem?_set_self (by simpa using horlen2)]
      by_cases hrn : orr = nr
      · have h1 : some row2 = some (row.set nc '█') := by
          rw [← hrow2, hrn, List.getElem?_set_self hnrlen]
        have hrow2eq := Option.some.inj h1
        have hcn : c2 ≠ nc := fun h => hne1 (by rw [hro, hrn, h])
        rw [hrn]
        show (row2.set oc '.')[c2]? = (g.buf[nr]?).bind fun r => r[c2]?
        rw [List.getElem?_set_ne (fun h => hco h.symm), hrow2eq,
          List.getElem?_set_ne (fun h => hcn h.symm)]
        simp [hrowsome]
      · have h1 : g.buf[orr]? = some row2 := by
          rw [← hrow2, List.getElem?_set_ne (fun h => hrn h.symm)]
        show (row2.set oc '.')[c2]? = (g.buf[orr]?).bind fun r => r[c2]?
        rw [List.getElem?_set_ne (fun h => hco h.symm)]
        simp [h1]
    · rw [List.getElem?_set_ne (fun h => hro h.symm)]
      by_cases hrn : r2 = nr
      · have hcn : c2 ≠ nc := fun h => hne1 (by rw [hrn, h])
        rw [hrn, List.getElem?_set_self hnrlen]
        show (row.set nc '█')[c2]? = (g.buf[nr]?).bind fun r => r[c2]?
        rw [List.getElem?_set_ne (fun h => hcn h.symm)]
        simp [hrowsome]
      · rw [List.getElem?_set_ne (fun h => hrn h.symm)]

/-- Rejected move: when the candidate-cell read succeeds and the acceptance
test fails, `mv` returns the state unchanged. -/
theorem mv_reject_aux (p : Player) (dir : ℤ) (s c : ℚ) (chr : Char)
    (hread : readCell p.map (f32toUsize (p.y + mvDy p dir c))
      (f32toUsize (p.x + mvDx p dir s)) = some chr)
    (hrej : ¬(chr ≠ '#' ∧ f32toUsize (p.x + mvDx p dir s) < p.map.width ∧
      f32toUsize (p.y + mvDy p dir c) < p.map.width)) :
    mv p dir s c = some p := by
  simp only [mv, hread]
  rw [if_neg hrej]

/-- Accepted move: when the candidate-cell read succeeds, the acceptance test
passes, the map is well-formed and the old integer cell lies inside the map
buffer, `mv` returns the state with the continuous position advanced, the
screen and scalars untouched, and — when the integer cell changed — exactly
the two affected map cells rewritten. -/
theorem mv_accept_aux (p : Player) (dir : ℤ) (s c : ℚ) (chr : Char)
    (hread : readCell p.map (f32toUsize (p.y + mvDy p dir c))
      (f32toUsize (p.x + mvDx p dir s)) = some chr)
    (hchr : chr ≠ '#')
    (hcol : f32toUsize (p.x + mvDx p dir s) < p.map.width)
    (hrow : f32toUsize (p.y + mvDy p dir c) < p.map.width)
    (hwf : wfGrid p.map)
    (holdr : f32toUsize p.y < p.map.height)
    (holdc : f32toUsize p.x < p.map.width) :
    ∃ q, mv p dir s c = some q ∧
      q.x = p.x + mvDx p dir s ∧ q.y = p.y + mvDy p dir c ∧
      q.rot = p.rot ∧ q.fov = p.fov ∧ q.movt_step = p.movt_step ∧
      q.screen = p.screen ∧
      ((f32toUsize p.x, f32toUsize p.y) =
          (f32toUsize (p.x + mvDx p dir s), f32toUsize (p.y + mvDy p dir c)) →
        q.map = p.map) ∧
      ((f32toUsize p.x, f32toUsize p.y) ≠
          (f32toUsize (p.x + mvDx p dir s), f32toUsize (p.y + mvDy p dir c)) →
        readCell q.map (f32toUsize (p.y + mvDy p dir c))
            (f32toUsize (p.x + mvDx p dir s)) = some '█' ∧
        readCell q.map (f32toUsize p.y) (f32toUsize p.x) = some '.' ∧
        ∀ r2 c2,
          (r2, c2) ≠ (f32toUsize (p.y + mvDy p dir c), f32toUsize (p.x + mvDx p dir s)) →
          (r2, c2) ≠ (f32toUsize p.y, f32toUsize p.x) →
          readCell q.map r2 c2 = readCell p.map r2 c2) := by
  obtain ⟨row, hrowsome, hcell⟩ : ∃ row,
      p.map.buf[f32toUsize (p.y + mvDy p dir c)]? = some row ∧
      row[f32toUsize (p.x + mvDx p dir s)]? = some chr := by
    unfold readCell at hread
    cases hb : p.map.buf[f32toUsize (p.y + mvDy p dir c)]? with
    | none => rw [hb] at hread; simp at hread
    | some r0 =>
      rw [hb] at hread
      exact ⟨r0, rfl, by simpa using hread⟩
  obtain ⟨hnrlen, -⟩ := List.getElem?_eq_some_iff.mp hrowsome
  obtain ⟨hnclen, -⟩ := List.getElem?_eq_some_iff.mp hcell
  have hrowlen : row.length = p.map.width := hwf.2 row (List.getElem?_mem hrowsome)
  have horlen2 : f32toUsize p.y < p.map.buf.length := by rw [hwf.1]; exact holdr
  have hw1 : writeCell p.map (f32toUsize (p.y + mvDy p dir c))
      (f32toUsize (p.x + mvDx p dir s)) '█' =
      some { p.map with
        buf := (p.map.buf.set (f32toUsize (p.y + mvDy p dir c))
          (row.set (f32toUsize (p.x + mvDx p dir s)) '█')) } :=
    writeCell_some _ _ _ _ row hrowsome hnclen
  by_cases hdiff : (f32toUsize p.x, f32toUsize p.y) =
      (f32toUsize (p.x + mvDx p dir s), f32toUsize (p.y + mvDy p dir c))
  · refine ⟨{ p with x := p.x + mvDx p dir s, y := p.y + mvDy p dir c }, ?_,
      rfl, rfl, rfl, rfl, rfl, rfl, fun _ => rfl, fun hne => absurd hdiff hne⟩
    simp only [mv, hread]
    rw [if_pos ⟨hchr, hcol, hrow⟩, if_neg (fun h => h hdiff)]
  · obtain ⟨row2, hrow2, hrow2len⟩ :
        ∃ row2, (p.map.buf.set (f32toUsize (p.y + mvDy p dir c))
            (row.set (f32toUsize (p.x + mvDx p dir s)) '█'))[f32toUsize p.y]? = some row2 ∧
          row2.length = p.map.width := by
      by_cases horn : f32toUsize p.y = f32toUsize (p.y + mvDy p dir c)
      · refine ⟨row.set (f32toUsize (p.x + mvDx p dir s)) '█', ?_, ?_⟩
        · rw [horn]
          exact List.getElem?_set_self hnrlen
        · rw [List.length_set]; exact hrowlen
      · obtain ⟨row2, hrow2⟩ : ∃ row2, p.map.buf[f32toUsize p.y]? = some row2 :=
          ⟨_, List.getElem?_eq_getElem horlen2⟩
        refine ⟨row2, ?_, hwf.2 _ (List.getElem?_mem hrow2)⟩
        rw [List.getElem?_set_ne (fun h => horn h.symm)]
        exact hrow2
    have hoclen2 : f32toUsize p.x < row2.length := by rw [hrow2len]; exact holdc
    have hw2 : writeCell { p.map with
          buf := (p.map.buf.set (f32toUsize (p.y + mvDy p dir c))
            (row.set (f32toUsize (p.x + mvDx p dir s)) '█')) }
        (f32toUsize p.y) (f32toUsize p.x) '.' =
        some { p.map with
          buf := ((p.map.buf.set (f32toUsize (p.y + mvDy p dir c))
            (row.set (f32toUsize (p.x + mvDx p dir s)) '█')).set (f32toUsize p.y)
            (row2.set (f32toUsize p.x) '.')) } :=
      writeCell_some _ _ _ _ row2 hrow2 hoclen2
    have hfacts := readCell_after_two_sets p.map (f32toUsize (p.y + mvDy p dir c))
      (f32toUsize (p.x + mvDx p dir s)) (f32toUsize p.y) (f32toUsize p.x) row row2
      hrowsome hrow2 hnclen hoclen2 hdiff
    refine ⟨{ p with x := p.x + mvDx p dir s, y := p.y + mvDy p dir c, map := { p.map with buf := ((p.map.buf.set (f32toUsize (p.y + mvDy p dir c)) (row.set (f32toUsize (p.x + mvDx p dir s)) '█')).set (f32toUsize p.y) (row2.set (f32toUsize p.x) '.')) } }, ?_,
      rfl, rfl, rfl, rfl, rfl, rfl, fun heq => absurd heq hdiff,
      fun _ => ⟨hfacts.1, hfacts.2.1, hfacts.2.2⟩⟩
    simp only [mv, hread]
    rw [if_pos ⟨hchr, hcol, hrow⟩, if_pos hdiff]
    simp only [hw1, hw2]

/-- Witness state for the move-rejection theorem: position (5, 4) faces the
wall cell at map row 3, column 5. -/
def pC1w : Player := ⟨5, 4, 0, 0, 1 / 2, gameMap, gameScreen⟩

/-- Counterexample state for C1: x = 100 puts the candidate column at 100,
far beyond the map's width of 19. -/
def pC1c : Player := ⟨100, 5, 0, 0, 1 / 2, gameMap, gameScreen⟩

/-- Counterexample state for C2: the old integer row 100 lies outside the
20-row map buffer, while a step size of 85 brings the candidate cell to the
in-bounds floor cell (row 15, column 3). -/
def pC2c : Player := ⟨3, 100, 0, 0, 85, gameMap, gameScreen⟩

/-- Witness state for C9: at (1/2, 1) with sine and cosine both 1/2 and
step 10, both candidate coordinates `x + dx = -9/2` and `y + dy = -4` are
negative. -/
def pC9w : Player := ⟨1 / 2, 1, 0, 0, 10, gameMap, gameScreen⟩

/-- C1 (amended): if the candidate cell `(floor(y+dy), floor(x+dx))` can be
read from the map buffer (the read panics otherwise — see the
counterexample) and it contains `'#'`, or its column or row index is at least
`map.width`, then `mv` leaves the entire state — position, facing, and every
map cell — unchanged. -/
theorem c1_mv_reject_unchanged (p : Player) (dir : ℤ) (s c : ℚ) (chr : Char)
    (hread : readCell p.map (f32toUsize (p.y + mvDy p dir c))
      (f32toUsize (p.x + mvDx p dir s)) = some chr)
    (hrej : chr = '#' ∨ p.map.width ≤ f32toUsize (p.x + mvDx p dir s) ∨
      p.map.width ≤ f32toUsize (p.y + mvDy p dir c)) :
    mv p dir s c = some p := by
  apply mv_reject_aux p dir s c chr hread
  rintro ⟨h1, h2, h3⟩
  rcases hrej with h | h | h
  · exact h1 h
  · exact absurd h2 (not_lt.mpr h)
  · exact absurd h3 (not_lt.mpr h)

/-- C1 witness: from (5, 4) facing north (sine 0, cosine 1), the forward move
targets the wall at map row 3, column 5 and is rejected with no state change. -/
theorem c1_mv_reject_witness :
    readCell pC1w.map (f32toUsize (pC1w.y + mvDy pC1w 1 1))
        (f32toUsize (pC1w.x + mvDx pC1w 1 0)) = some '#' ∧
    mv pC1w 1 0 1 = some pC1w := by
  have hcol : f32toUsize (pC1w.x + mvDx pC1w 1 0) = 5 := by
    norm_num [pC1w, mvDx, f32toUsize, ratFloor_eq_intFloor]
    decide
  have hrow : f32toUsize (pC1w.y + mvDy pC1w 1 1) = 3 := by
    norm_num [pC1w, mvDy, f32toUsize, ratFloor_eq_intFloor]
    decide
  have hread : readCell pC1w.map (f32toUsize (pC1w.y + mvDy pC1w 1 1))
      (f32toUsize (pC1w.x + mvDx pC1w 1 0)) = some '#' := by
    rw [hcol, hrow]; decide
  exact ⟨hread, c1_mv_reject_unchanged pC1w 1 0 1 '#' hread (Or.inl rfl)⟩

/-- C1 counterexample: at x = 100 (sine 0, cosine 1, step 1/2) the candidate
column is 100 ≥ width = 19, yet `mv` does not leave the state unchanged — it
panics (returns `none`) because the cell is read before the bounds test. -/
theorem c1_mv_reject_cex :
    pC1c.map.width ≤ f32toUsize (pC1c.x + mvDx pC1c 1 0) ∧
    mv pC1c 1 0 1 ≠ some pC1c := by
  have hcol : f32toUsize (pC1c.x + mvDx pC1c 1 0) = 100 := by
    norm_num [pC1c, mvDx, f32toUsize, ratFloor_eq_intFloor]
    decide
  have hrow : f32toUsize (pC1c.y + mvDy pC1c 1 1) = 4 := by
    norm_num [pC1c, mvDy, f32toUsize, ratFloor_eq_intFloor]
    decide
  have hnone : mv pC1c 1 0 1 = none := by
    simp only [mv, hcol, hrow]
    rw [show readCell pC1c.map 4 100 = none from by decide]
  constructor
  · rw [hcol]; decide
  · rw [hnone]; exact fun h => Option.noConfusion h

/-- C2 (amended): when `mv` accepts the move (candidate cell readable, not a
wall, both indices below `map.width`), the map is well-formed and — the
amendment — the old integer cell `(floor y, floor x)` lies inside the map
buffer, the continuous position becomes `(x+dx, y+dy)` unconditionally, and
if the integer cell changed exactly two map cells change: the new cell
becomes `'█'`, the old cell becomes `'.'`, and every other cell is equal to
its value before the call (if the old cell is outside the buffer, `mv`
panics instead — see the counterexample). -/
theorem c2_mv_accept_effect (p : Player) (dir : ℤ) (s c : ℚ) (chr : Char)
    (hread : readCell p.map (f32toUsize (p.y + mvDy p dir c))
      (f32toUsize (p.x + mvDx p dir s)) = some chr)
    (hchr : chr ≠ '#')
    (hcol : f32toUsize (p.x + mvDx p dir s) < p.map.width)
    (hrow : f32toUsize (p.y + mvDy p dir c) < p.map.width)
    (hwf : wfGrid p.map)
    (holdr : f32toUsize p.y < p.map.height)
    (holdc : f32toUsize p.x < p.map.width) :
    ∃ q, mv p dir s c = some q ∧
      q.x = p.x + mvDx p dir s ∧ q.y = p.y + mvDy p dir c ∧
      q.rot = p.rot ∧ q.fov = p.fov ∧ q.movt_step = p.movt_step ∧
      q.screen = p.screen ∧
      ((f32toUsize p.x, f32toUsize p.y) =
          (f32toUsize (p.x + mvDx p dir s), f32toUsize (p.y + mvDy p dir c)) →
        q.map = p.map) ∧
      ((f32toUsize p.x, f32toUsize p.y) ≠
          (f32toUsize (p.x + mvDx p dir s), f32toUsize (p.y + mvDy p dir c)) →
        readCell q.map (f32toUsize (p.y + mvDy p dir c))
            (f32toUsize (p.x + mvDx p dir s)) = some '█' ∧
        readCell q.map (f32toUsize p.y) (f32toUsize p.x) = some '.' ∧
        ∀ r2 c2,
          (r2, c2) ≠ (f32toUsize (p.y + mvDy p dir c), f32toUsize (p.x + mvDx p dir s)) →
          (r2, c2) ≠ (f32toUsize p.y, f32toUsize p.x) →
          readCell q.map r2 c2 = readCell p.map r2 c2) :=
  mv_accept_aux p dir s c chr hread hchr hcol hrow hwf holdr holdc

/-- C2 witness: from the initial state (3, 5) facing north (sine 0, cosine 1,
step 1/2), the forward move is accepted into the floor cell at row 4,
column 3 and the continuous position advances. -/
theorem c2_mv_accept_witness :
    readCell pBase.map (f32toUsize (pBase.y + mvDy pBase 1 1))
        (f32toUsize (pBase.x + mvDx pBase 1 0)) = some '.' ∧
    ∃ q, mv pBase 1 0 1 = some q ∧ q.x = pBase.x + mvDx pBase 1 0 ∧
      q.y = pBase.y + mvDy pBase 1 1 := by
  have hcol : f32toUsize (pBase.x + mvDx pBase 1 0) = 3 := by
    norm_num [pBase, mvDx, f32toUsize, ratFloor_eq_intFloor]
    decide
  have hrow : f32toUsize (pBase.y + mvDy pBase 1 1) = 4 := by
    norm_num [pBase, mvDy, f32toUsize, ratFloor_eq_intFloor]
    decide
  have hox : f32toUsize pBase.x = 3 := by
    norm_num [pBase, f32toUsize, ratFloor_eq_intFloor]
    decide
  have hoy : f32toUsize pBase.y = 5 := by
    norm_num [pBase, f32toUsize, ratFloor_eq_intFloor]
    decide
  have hread : readCell pBase.map (f32toUsize (pBase.y + mvDy pBase 1 1))
      (f32toUsize (pBase.x + mvDx pBase 1 0)) = some '.' := by
    rw [hcol, hrow]; decide
  obtain ⟨q, hq, hx, hy, -⟩ := c2_mv_accept_effect pBase 1 0 1 '.' hread
    (by decide) (by rw [hcol]; decide) (by rw [hrow]; decide) (by decide)
    (by rw [hoy]; decide) (by rw [hox]; decide)
  exact ⟨hread, q, hq, hx, hy⟩

/-- C2 counterexample: at (3, 100) with step size 85 facing north, the move
is accepted into the in-bounds floor cell (row 15, column 3) and the integer
cell changes, yet `mv` performs no two-cell update — it panics (returns
`none`) writing `'.'` to the out-of-bounds old cell at row 100. -/
theorem c2_mv_accept_cex :
    readCell pC2c.map (f32toUsize (pC2c.y + mvDy pC2c 1 1))
        (f32toUsize (pC2c.x + mvDx pC2c 1 0)) = some '.' ∧
    f32toUsize (pC2c.x + mvDx pC2c 1 0) < pC2c.map.width ∧
    f32toUsize (pC2c.y + mvDy pC2c 1 1) < pC2c.map.width ∧
    (f32toUsize pC2c.x, f32toUsize pC2c.y) ≠
      (f32toUsize (pC2c.x + mvDx pC2c 1 0), f32toUsize (pC2c.y + mvDy pC2c 1 1)) ∧
    mv pC2c 1 0 1 = none := by
  have hcol : f32toUsize (pC2c.x + mvDx pC2c 1 0) = 3 := by
    norm_num [pC2c, mvDx, f32toUsize, ratFloor_eq_intFloor]
    decide
  have hrow : f32toUsize (pC2c.y + mvDy pC2c 1 1) = 15 := by
    norm_num [pC2c, mvDy, f32toUsize, ratFloor_eq_intFloor]
    decide
  have hox : f32toUsize pC2c.x = 3 := by
    norm_num [pC2c, f32toUsize, ratFloor_eq_intFloor]
    decide
  have hoy : f32toUsize pC2c.y = 100 := by
    norm_num [pC2c, f32toUsize, ratFloor_eq_intFloor]
    decide
  refine ⟨?_, ?_, ?_, ?_, ?_⟩
  · rw [hcol, hrow]; decide
  · rw [hcol]; decide
  · rw [hrow]; decide
  · rw [hcol, hrow, hox, hoy]; decide
  · simp only [mv, hcol, hrow, hox, hoy]
    decide


/-- C9: a negative candidate coordinate saturates to index 0 under the
`as usize` cast rather than wrapping — when `x + dx < 0` the map cell read is
at column 0, and when `y + dy < 0` it is at row 0. In each case, under the
stated in-bounds side conditions (well-formed map, the other candidate index
inside the map, the old cell inside the map) the read never panics on account
of the negativity, and the move is not rejected for negativity: it is
accepted — position advanced to `(x+dx, y+dy)` — exactly when that cell is
not `'#'` and both saturated indices are below `map.width`, and otherwise
rejected with the state unchanged. -/
theorem c9_negative_saturates (p : Player) (dir : ℤ) (s c : ℚ)
    (hwf : wfGrid p.map)
    (hw0 : 0 < p.map.width)
    (hh0 : 0 < p.map.height)
    (holdr : f32toUsize p.y < p.map.height)
    (holdc : f32toUsize p.x < p.map.width) :
    (p.x + mvDx p dir s < 0 →
      f32toUsize (p.x + mvDx p dir s) = 0 ∧
      (f32toUsize (p.y + mvDy p dir c) < p.map.height →
        (mv p dir s c).isSome ∧
        ∀ chr, readCell p.map (f32toUsize (p.y + mvDy p dir c)) 0 = some chr →
          ((chr ≠ '#' ∧ 0 < p.map.width ∧
              f32toUsize (p.y + mvDy p dir c) < p.map.width →
            ∃ q, mv p dir s c = some q ∧ q.x = p.x + mvDx p dir s ∧
              q.y = p.y + mvDy p dir c) ∧
           (¬(chr ≠ '#' ∧ 0 < p.map.width ∧
              f32toUsize (p.y + mvDy p dir c) < p.map.width) →
            mv p dir s c = some p)))) ∧
    (p.y + mvDy p dir c < 0 →
      f32toUsize (p.y + mvDy p dir c) = 0 ∧
      (f32toUsize (p.x + mvDx p dir s) < p.map.width →
        (mv p dir s c).isSome ∧
        ∀ chr, readCell p.map 0 (f32toUsize (p.x + mvDx p dir s)) = some chr →
          ((chr ≠ '#' ∧ f32toUsize (p.x + mvDx p dir s) < p.map.width ∧
              0 < p.map.width →
            ∃ q, mv p dir s c = some q ∧ q.x = p.x + mvDx p dir s ∧
              q.y = p.y + mvDy p dir c) ∧
           (¬(chr ≠ '#' ∧ f32toUsize (p.x + mvDx p dir s) < p.map.width ∧
              0 < p.map.width) →
            mv p dir s c = some p)))) := by
  constructor
  · intro hnegx
    have hzero : f32toUsize (p.x + mvDx p dir s) = 0 := by
      have h1 : ((p.x + mvDx p dir s).floor : ℚ) ≤ p.x + mvDx p dir s := ratFloor_le _
      have h2 : ((p.x + mvDx p dir s).floor : ℚ) < 0 := lt_of_le_of_lt h1 hnegx
      have h3 : (p.x + mvDx p dir s).floor < 0 := by exact_mod_cast h2
      unfold f32toUsize
      omega
    refine ⟨hzero, ?_⟩
    intro hrowh
    obtain ⟨chr0, hc0⟩ : ∃ chr0,
        readCell p.map (f32toUsize (p.y + mvDy p dir c)) 0 = some chr0 := by
      have hlen : f32toUsize (p.y + mvDy p dir c) < p.map.buf.length := by
        rw [hwf.1]; exact hrowh
      obtain ⟨row0, hrow0⟩ : ∃ row0, p.map.buf[f32toUsize (p.y + mvDy p dir c)]? = some row0 :=
        ⟨_, List.getElem?_eq_getElem hlen⟩
      have hrowlen : row0.length = p.map.width := hwf.2 _ (List.getElem?_mem hrow0)
      obtain ⟨ch, hch⟩ : ∃ ch, row0[0]? = some ch :=
        ⟨_, List.getElem?_eq_getElem (by rw [hrowlen]; exact hw0)⟩
      refine ⟨ch, ?_⟩
      unfold readCell
      rw [hrow0]
      simpa using hch
    have hc0q : readCell p.map (f32toUsize (p.y + mvDy p dir c))
        (f32toUsize (p.x + mvDx p dir s)) = some chr0 := by rw [hzero]; exact hc0
    refine ⟨?_, ?_⟩
    · by_cases hacc : chr0 ≠ '#' ∧ f32toUsize (p.y + mvDy p dir c) < p.map.width
      · obtain ⟨q, hq, -⟩ := mv_accept_aux p dir s c chr0 hc0q hacc.1
          (by rw [hzero]; exact hw0) hacc.2 hwf holdr holdc
        simp [hq]
      · have hmv : mv p dir s c = some p := by
          apply mv_reject_aux p dir s c chr0 hc0q
          rintro ⟨ha, hb, hd⟩
          exact hacc ⟨ha, hd⟩
        simp [hmv]
    · intro chr hchr
      have hchrq : readCell p.map (f32toUsize (p.y + mvDy p dir c))
          (f32toUsize (p.x + mvDx p dir s)) = some chr := by rw [hzero]; exact hchr
      constructor
      · rintro ⟨ha, hb, hd⟩
        obtain ⟨q, hq, hx, hy, -⟩ := mv_accept_aux p dir s c chr hchrq ha
          (by rw [hzero]; exact hb) hd hwf holdr holdc
        exact ⟨q, hq, hx, hy⟩
      · intro hrej
        apply mv_reject_aux p dir s c chr hchrq
        rintro ⟨ha, hb, hd⟩
        refine hrej ⟨ha, ?_, hd⟩
        rwa [hzero] at hb
  · intro hnegy
    have hzero : f32toUsize (p.y + mvDy p dir c) = 0 := by
      have h1 : ((p.y + mvDy p dir c).floor : ℚ) ≤ p.y + mvDy p dir c := ratFloor_le _
      have h2 : ((p.y + mvDy p dir c).floor : ℚ) < 0 := lt_of_le_of_lt h1 hnegy
      have h3 : (p.y + mvDy p dir c).floor < 0 := by exact_mod_cast h2
      unfold f32toUsize
      omega
    refine ⟨hzero, ?_⟩
    intro hcolw
    obtain ⟨chr0, hc0⟩ : ∃ chr0,
        readCell p.map 0 (f32toUsize (p.x + mvDx p dir s)) = some chr0 := by
      have hlen : 0 < p.map.buf.length := by
        rw [hwf.1]; exact hh0
      obtain ⟨row0, hrow0⟩ : ∃ row0, p.map.buf[0]? = some row0 :=
        ⟨_, List.getElem?_eq_getElem hlen⟩
      have hrowlen : row0.length = p.map.width := hwf.2 _ (List.getElem?_mem hrow0)
      obtain ⟨ch, hch⟩ : ∃ ch, row0[f32toUsize (p.x + mvDx p dir s)]? = some ch :=
        ⟨_, List.getElem?_eq_getElem (by rw [hrowlen]; exact hcolw)⟩
      refine ⟨ch, ?_⟩
      unfold readCell
      rw [hrow0]
      simpa using hch
    have hc0q : readCell p.map (f32toUsize (p.y + mvDy p dir c))
        (f32toUsize (p.x + mvDx p dir s)) = some chr0 := by rw [hzero]; exact hc0
    refine ⟨?_, ?_⟩
    · by_cases hacc : chr0 ≠ '#' ∧ f32toUsize (p.x + mvDx p dir s) < p.map.width
      · obtain ⟨q, hq, -⟩ := mv_accept_aux p dir s c chr0 hc0q hacc.1 hacc.2
          (by rw [hzero]; exact hw0) hwf holdr holdc
        simp [hq]
      · have hmv : mv p dir s c = some p := by
          apply mv_reject_aux p dir s c chr0 hc0q
          rintro ⟨ha, hb, hd⟩
          exact hacc ⟨ha, hb⟩
        simp [hmv]
    · intro chr hchr
      have hchrq : readCell p.map (f32toUsize (p.y + mvDy p dir c))
          (f32toUsize (p.x + mvDx p dir s)) = some chr := by rw [hzero]; exact hchr
      constructor
      · rintro ⟨ha, hb, hd⟩
        obtain ⟨q, hq, hx, hy, -⟩ := mv_accept_aux p dir s c chr hchrq ha hb
          (by rw [hzero]; exact hd) hwf holdr holdc
        exact ⟨q, hq, hx, hy⟩
      · intro hrej
        apply mv_reject_aux p dir s c chr hchrq
        rintro ⟨ha, hb, hd⟩
        refine hrej ⟨ha, hb, ?_⟩
        rwa [hzero] at hd

/-- C9 witness: at (1/2, 1) with sine 1/2, cosine 1/2 and step 10 both
candidate coordinates are negative; each saturates to index 0 and `mv`
completes without a panic. -/
theorem c9_negative_witness :
    pC9w.x + mvDx pC9w 1 (1 / 2) < 0 ∧ pC9w.y + mvDy pC9w 1 (1 / 2) < 0 ∧
    f32toUsize (pC9w.x + mvDx pC9w 1 (1 / 2)) = 0 ∧
    f32toUsize (pC9w.y + mvDy pC9w 1 (1 / 2)) = 0 ∧
    (mv pC9w 1 (1 / 2) (1 / 2)).isSome := by
  have hnegx : pC9w.x + mvDx pC9w 1 (1 / 2) < 0 := by norm_num [pC9w, mvDx]
  have hnegy : pC9w.y + mvDy pC9w 1 (1 / 2) < 0 := by norm_num [pC9w, mvDy]
  have h1 : f32toUsize pC9w.y = 1 := by
    norm_num [pC9w, f32toUsize, ratFloor_eq_intFloor]
  have h0 : f32toUsize pC9w.x = 0 := by
    norm_num [pC9w, f32toUsize, ratFloor_eq_intFloor]
  have hmain := c9_negative_saturates pC9w 1 (1 / 2) (1 / 2) (by decide) (by decide)
    (by decide) (by rw [h1]; decide) (by rw [h0]; decide)
  obtain ⟨hzx, hrest⟩ := hmain.1 hnegx
  obtain ⟨hzy, -⟩ := hmain.2 hnegy
  have hsome := (hrest (by rw [hzy]; decide)).1
  exact ⟨hnegx, hnegy, hzx, hzy, hsome⟩
